import Mathlib

/-!
Verification of the raster-to-vector path pipeline of the adobe-ai repository.

The Python sources are shallowly embedded here: points are pairs of
rationals (the code computes with floats; all comparisons the algorithms
make are of Euclidean distances against thresholds, which we carry out
exactly on squared distances), pixel grids are integer-indexed boolean
masks, and every fallible numeric fit (scipy) is abstracted as an
explicit `Option`-valued oracle argument.  Each definition mirrors one
Python function and keeps its name.  Definitions come first, then the
theorems about them.
-/

/-! # Definitions -/

/-- A 2D point with rational coordinates, standing for the float pairs
used throughout the Python sources. -/
abbrev Pt : Type := ℚ × ℚ

/-- Squared Euclidean distance between two points.  The Python code
computes `sqrt((x1-x2)**2 + (y1-y2)**2)` and only ever compares the
result against thresholds, so we work with the square. -/
def sqDist (p q : Pt) : ℚ := (p.1 - q.1) ^ 2 + (p.2 - q.2) ^ 2

/-- Signed square, `x * |x|`.  For a real threshold `t` and a distance
`d ≥ 0` we have `d < t ↔ d² < signedSq t` and `d ≥ t ↔ d² ≥ signedSq t`,
so comparing squared distances against `signedSq` of a threshold is an
exact model of the float comparisons in the source. -/
def signedSq (x : ℚ) : ℚ := x * |x|

/-- The decimation loop of `simplify_path_points`: `last` is the last
kept point (`simplified[-1]` in the source); a point is kept when its
distance from `last` is at least `t` (`dist >= tolerance`). -/
def decimFrom (t : ℚ) (last : Pt) : List Pt → List Pt
  | [] => []
  | p :: ps =>
    if signedSq t ≤ sqDist last p then p :: decimFrom t p ps
    else decimFrom t last ps

/-- `simplify_path_points(points, tolerance)` from clean_smooth.py:
returns paths with fewer than 3 points unchanged, otherwise keeps the
first point and every later point at distance at least `tolerance`
from the previously kept one. -/
def simplify_path_points (t : ℚ) (pts : List Pt) : List Pt :=
  if pts.length < 3 then pts
  else
    match pts with
    | [] => []
    | p :: ps => p :: decimFrom t p ps

/-- The 50-point diagonal path `(0,0), (1,1), …, (49,49)` of the spec
scenario ("a single diagonal line of 50 connected foreground pixels",
listed in the order the tracer emits them). -/
def diag50 : List Pt := (List.range 50).map (fun i => ((i : ℚ), (i : ℚ)))

/-- The inner loop of `chaikin_step` in clean_smooth.py: for every edge
`(p0, p1)` emit the two cut points at 1/4 and 3/4 interpolation. -/
def chaikinQR : List Pt → List Pt
  | p0 :: p1 :: rest =>
      (0.75 * p0.1 + 0.25 * p1.1, 0.75 * p0.2 + 0.25 * p1.2) ::
      (0.25 * p0.1 + 0.75 * p1.1, 0.25 * p0.2 + 0.75 * p1.2) ::
      chaikinQR (p1 :: rest)
  | _ => []

/-- One Chaikin corner-cutting step (`chaikin_step` in clean_smooth.py):
the first input point, then the two cut points of every edge, then the
last input point. -/
def chaikin_step (pts : List Pt) : List Pt :=
  match pts with
  | [] => []
  | p :: rest => p :: (chaikinQR (p :: rest) ++ [(p :: rest).getLast (by simp)])

/-- `chaikin_smooth(points, iterations)` from clean_smooth.py: paths of
fewer than 4 points, or a non-positive iteration count, are returned
unchanged; otherwise `chaikin_step` is applied `iterations` times. -/
def chaikin_smooth (pts : List Pt) (iterations : ℕ) : List Pt :=
  if pts.length < 4 ∨ iterations = 0 then pts
  else chaikin_step^[iterations] pts

/-- A single vector path command: the serializers emit one `moveto` for
the first point of a path and one `lineto` per subsequent point. -/
inductive PathCmd : Type
  | moveto (x y : ℚ)
  | lineto (x y : ℚ)
  deriving DecidableEq

/-- The commands `output_ai` in clean_smooth.py emits for one path:
paths of fewer than 2 points are skipped, otherwise a `moveto` for
`points[0]` and a `lineto` for each `points[j]`, `1 ≤ j < len`; every
vertical coordinate is emitted flipped as `height - y` (print
convention, bottom-left origin). -/
def aiPathCmds (height : ℚ) (p : List Pt) : List PathCmd :=
  if p.length < 2 then []
  else
    PathCmd.moveto (p.getD 0 default).1 (height - (p.getD 0 default).2) ::
      (List.range' 1 (p.length - 1)).map
        (fun j => PathCmd.lineto (p.getD j default).1 (height - (p.getD j default).2))

/-- `output_ai(paths, …, height)` from clean_smooth.py, restricted to
the path geometry it writes: the concatenation of the per-path command
lists. -/
def output_ai (height : ℚ) (paths : List (List Pt)) : List PathCmd :=
  paths.flatMap (aiPathCmds height)

/-- The commands `output_svg` in clean_smooth.py emits for one path:
as for the AI output, but coordinates are left unflipped (screen/SVG
convention, top-left origin). -/
def svgPathCmds (p : List Pt) : List PathCmd :=
  if p.length < 2 then []
  else
    PathCmd.moveto (p.getD 0 default).1 (p.getD 0 default).2 ::
      (List.range' 1 (p.length - 1)).map
        (fun j => PathCmd.lineto (p.getD j default).1 (p.getD j default).2)

/-- `output_svg(paths, …)` from clean_smooth.py, restricted to the path
geometry it writes. -/
def output_svg (paths : List (List Pt)) : List PathCmd :=
  paths.flatMap svgPathCmds

/-- `curve_fitting_smooth(points, …)` from very_smooth.py.  The scipy
cubic interpolation (`interp1d`) is an external library call, abstracted
here as the oracle `fit`; `none` models the `except` branch (a raised
fitting exception).  Paths of fewer than 4 points are returned
unchanged, and a failed fit falls back to the input path. -/
def curve_fitting_smooth (fit : List Pt → Option (List Pt)) (pts : List Pt) : List Pt :=
  if pts.length < 4 then pts
  else
    match fit pts with
    | some fitted => fitted
    | none => pts

/-- `fit_smooth_curve(points, smoothing)` from smooth_bspline.py.  The
scipy B-spline fit (`splprep`/`splev`) is abstracted as the oracle
`fit`; `none` models the `except` branch.  Paths of fewer than 4 points
are returned unchanged, and a failed fit falls back to the input path. -/
def fit_smooth_curve (fit : List Pt → Option (List Pt)) (pts : List Pt) : List Pt :=
  if pts.length < 4 then pts
  else
    match fit pts with
    | some fitted => fitted
    | none => pts

/-- Truncation toward zero, as Python's `int()` applied to a float. -/
def qtrunc (q : ℚ) : ℤ := q.num / q.den

/-- Mean of a window of points, each coordinate truncated to an integer
(`int(np.mean(...))` in the source). -/
def windowAvg (win : List Pt) : Pt :=
  (((qtrunc ((win.map Prod.fst).sum / (win.length : ℚ))) : ℚ),
   ((qtrunc ((win.map Prod.snd).sum / (win.length : ℚ))) : ℚ))

/-- `moving_average_smooth(points, window)` from very_smooth.py: paths
shorter than the window are returned unchanged; otherwise each point is
replaced by the truncated mean of the points in a symmetric window
clipped at the path ends (`start = max(0, i - half)`,
`end = min(len, i + half + 1)`). -/
def moving_average_smooth (pts : List Pt) (window : ℕ) : List Pt :=
  if pts.length < window then pts
  else
    (List.range pts.length).map (fun i =>
      windowAvg ((pts.drop (i - window / 2)).take
        (min pts.length (i + window / 2 + 1) - (i - window / 2))))

/-- A pixel coordinate `(x, y)` on the integer grid. -/
abbrev Cell : Type := ℤ × ℤ

/-- A binary mask of width `W` and height `H`: `pix c` is the raw pixel
test `skeleton[y, x] > 0` of the source. -/
structure Grid where
  W : ℤ
  H : ℤ
  pix : Cell → Bool

/-- The bounds check `0 <= nx < width and 0 <= ny < height`. -/
def inBounds (g : Grid) (c : Cell) : Bool :=
  decide (0 ≤ c.1 ∧ c.1 < g.W ∧ 0 ≤ c.2 ∧ c.2 < g.H)

/-- Foreground test: in bounds and nonzero. -/
def fgB (g : Grid) (c : Cell) : Bool := inBounds g c && g.pix c

/-- The set of foreground pixels of the mask. -/
def fgSet (g : Grid) : Finset Cell :=
  (Finset.Icc (0 : ℤ) (g.W - 1) ×ˢ Finset.Icc (0 : ℤ) (g.H - 1)).filter
    (fun c => fgB g c)

/-- The eight neighbour offsets `(dx, dy)` in the order of the nested
`for dy in [-1,0,1]: for dx in [-1,0,1]:` loops of the source,
skipping `(0, 0)`. -/
def nbrOffsets : List Cell :=
  [(-1,-1),(0,-1),(1,-1),(-1,0),(1,0),(-1,1),(0,1),(1,1)]

/-- The unvisited in-bounds foreground neighbours of `c` in loop order:
the source checks bounds, `skeleton[ny, nx] > 0` and
`visited[ny, nx] == 0`, then marks and pushes each such neighbour (the
eight candidates are pairwise distinct, so marking-while-scanning is
the same as marking the whole batch). -/
def newNbrs (g : Grid) (vis : Finset Cell) (c : Cell) : List Cell :=
  (nbrOffsets.map (fun d => (c.1 + d.1, c.2 + d.2))).filter
    (fun n => fgB g n && decide (n ∉ vis))

/-- The `while stack:` flood-fill loop shared by `trace_all_contours`,
`remove_noise_from_skeleton`, `skeleton_to_contours` and `extract_paths`:
pop the top of the LIFO stack (the head here, matching Python's
`list.pop()` from the end), append it to the traversal order `acc`, and
push its unvisited foreground neighbours after marking them visited.
Each pixel is pushed at most once, so the loop makes at most
`9·|foreground \ visited| + |stack|` steps; `fuel` is a bound on the
remaining steps, consumed one per iteration. -/
def floodLoop (g : Grid) : ℕ → Finset Cell → List Cell → List Cell → List Cell × Finset Cell
  | 0, vis, _, acc => (acc, vis)
  | fuel + 1, vis, stack, acc =>
    match stack with
    | [] => (acc, vis)
    | c :: rest =>
      floodLoop g fuel (vis ∪ (newNbrs g vis c).toFinset)
        ((newNbrs g vis c).reverse ++ rest) (acc ++ [c])

/-- Fuel that always suffices for one flood fill: nine steps per grid
pixel plus one. -/
def fuelFor (g : Grid) : ℕ := 9 * (g.W.toNat * g.H.toNat) + 1

/-- The row-major scan order `for y in range(height): for x in
range(width):` of the source. -/
def scanCells (g : Grid) : List Cell :=
  (List.range g.H.toNat).flatMap
    (fun (y : ℕ) => (List.range g.W.toNat).map (fun (x : ℕ) => (Int.ofNat x, Int.ofNat y)))

/-- The outer scan loop of the tracer: every unvisited foreground pixel
seeds a flood fill whose traversal order becomes one component. -/
def traceScan (g : Grid) :
    List Cell → Finset Cell → List (List Cell) → List (List Cell) × Finset Cell
  | [], vis, comps => (comps, vis)
  | c :: cs, vis, comps =>
    if fgB g c ∧ c ∉ vis then
      traceScan g cs (floodLoop g (fuelFor g) (insert c vis) [c] []).2
        (comps ++ [(floodLoop g (fuelFor g) (insert c vis) [c] []).1])
    else traceScan g cs vis comps

/-- The tracer with its per-component size filter. -/
def traceComponents (g : Grid) (keep : ℕ → Bool) : List (List Cell) :=
  ((traceScan g (scanCells g) ∅ []).1).filter (fun pts => keep pts.length)

/-- `trace_all_contours(skeleton)` from optimized_lines.py: flood-fill
components in row-major seed order, keeping those with more than 5
points (`if len(points) > 5`). -/
def trace_all_contours (g : Grid) : List (List Cell) :=
  traceComponents g (fun n => decide (5 < n))

/-- `remove_noise_from_skeleton(skeleton, min_length)` from
clean_smooth.py: the same traversal, keeping components with at least
`min_length` points (`if len(points) >= min_length`). -/
def remove_noise_from_skeleton (g : Grid) (min_length : ℕ) : List (List Cell) :=
  traceComponents g (fun n => decide (min_length ≤ n))

/-- Chebyshev distance between two cells; 8-adjacency is `cheb = 1`. -/
def cheb (p q : Cell) : ℤ := max |p.1 - q.1| |p.2 - q.2|

/-- Every point of the list except the first is 8-adjacent to some
earlier point of the list. -/
def linked (l : List Cell) : Prop :=
  ∀ i q, 0 < i → l[i]? = some q → ∃ p ∈ l.take i, cheb p q = 1

/-- A 4×3 mask shaped like an L: a horizontal stroke `(0,0)…(3,0)` and
a vertical stroke `(0,1), (0,2)` joined at the corner. -/
def exGrid : Grid :=
  ⟨4, 3, fun c => decide ((c.2 = 0 ∧ 0 ≤ c.1 ∧ c.1 ≤ 3) ∨ (c.1 = 0 ∧ 0 ≤ c.2 ∧ c.2 ≤ 2))⟩

/-- An all-background 3×3 mask. -/
def bgGrid : Grid := ⟨3, 3, fun _ => false⟩

/-- A 6×1 mask that is a single horizontal line of 6 pixels. -/
def lineGrid : Grid := ⟨6, 1, fun c => decide (c.2 = 0)⟩

/-- Number of occurrences of the cell `c` in the list `l`. -/
def countCell (l : List Cell) (c : Cell) : ℕ := l.countP (fun x => decide (x = c))

/-- Every pair of consecutive points of the list is 8-adjacent
(Chebyshev distance 1) — the property C2 asserts of traced paths. -/
def chainAdj (l : List Cell) : Prop :=
  ∀ i, i + 1 < l.length → cheb (l.getD i (0, 0)) (l.getD (i + 1) (0, 0)) = 1

/-- `np.clip(x, lo, hi)`. -/
def clampQ (x lo hi : ℚ) : ℚ := max lo (min x hi)

/-- `perpendicular_distance(point, line_start, line_end)` from
final_smooth.py, squared.  The source projects the point onto the
chord, clips the projection to the segment, and returns the distance to
the clipped projection; degenerate chords (`np.allclose(start, end)`,
exact equality here) fall back to the point distance.  Dividing the dot
product by the squared chord length gives the same clipped projection
point without square roots. -/
def perpDistSq (p a b : Pt) : ℚ :=
  if a = b then sqDist p a
  else
    sqDist p
      (a.1 + clampQ (((p.1 - a.1) * (b.1 - a.1) + (p.2 - a.2) * (b.2 - a.2)) / sqDist a b) 0 1
         * (b.1 - a.1),
       a.2 + clampQ (((p.1 - a.1) * (b.1 - a.1) + (p.2 - a.2) * (b.2 - a.2)) / sqDist a b) 0 1
         * (b.2 - a.2))

/-- The maximum-deviation scan of `rdp` in final_smooth.py: over the
interior indices `start+1 … end-1`, track the largest (squared)
perpendicular distance and its index, starting from `(0, start)` and
updating on strict increase (`d > max_dist`). -/
def rdpMax (pts : List Pt) (a b : Pt) (s e : ℕ) : ℚ × ℕ :=
  (List.range' (s + 1) (e - (s + 1))).foldl
    (fun m i =>
      if m.1 < perpDistSq (pts.getD i default) a b
      then (perpDistSq (pts.getD i default) a b, i)
      else m)
    (0, s)

/-- The recursion `rdp(points, start, end, eps)` of
`ramer_douglas_pecker` in final_smooth.py: segments of length ≤ 1
return `[points[start]]`; otherwise split at the maximum deviation when
it exceeds `eps` and combine as `left[:-1] + right`, else keep the two
chord endpoints.  The recursion depth is bounded by `e - s`, so a fuel
of the path length is always sufficient. -/
def rdpAux (pts : List Pt) (eps : ℚ) : ℕ → ℕ → ℕ → List Pt
  | 0, _, _ => []
  | fuel + 1, s, e =>
    if e ≤ s + 1 then [pts.getD s default]
    else
      if signedSq eps < (rdpMax pts (pts.getD s default) (pts.getD e default) s e).1 then
        (rdpAux pts eps fuel s (rdpMax pts (pts.getD s default) (pts.getD e default) s e).2).dropLast
          ++ rdpAux pts eps fuel (rdpMax pts (pts.getD s default) (pts.getD e default) s e).2 e
      else [pts.getD s default, pts.getD e default]

/-- `ramer_douglas_pecker(points, epsilon)` from final_smooth.py: paths
of fewer than 3 points are returned unchanged, otherwise the result of
`rdp(points, 0, len(points) - 1, epsilon)`. -/
def ramer_douglas_pecker (pts : List Pt) (eps : ℚ) : List Pt :=
  if pts.length < 3 then pts
  else rdpAux pts eps pts.length 0 (pts.length - 1)

/-- The inner scan of `find_close_endpoints` in continuous_no_gap.py:
`j` runs over the given index list, used indices are skipped, and the
strictly closest endpoint so far is tracked (`if dist < min_dist`).
`m` carries the signed square of the running `min_dist` — initially the
`max_dist` parameter, afterwards an actual distance — so every
comparison is exact; `closest = none` models the sentinel `-1`. -/
def innerScan (eps : List Pt) (used : Finset ℕ) (i : ℕ) :
    List ℕ → ℚ → Option ℕ → ℚ × Option ℕ
  | [], m, closest => (m, closest)
  | j :: js, m, closest =>
    if j ∈ used then innerScan eps used i js m closest
    else
      if sqDist (eps.getD i default) (eps.getD j default) < m then
        innerScan eps used i js
          (sqDist (eps.getD i default) (eps.getD j default)) (some j)
      else innerScan eps used i js m closest

/-- The outer loop of `find_close_endpoints`: each unused index `i`
scans `j ∈ range(i+1, n)` for its nearest unused endpoint below the
threshold; on success both indices are marked used and the pair is
appended. -/
def outerScan (eps : List Pt) (g : ℚ) :
    List ℕ → Finset ℕ → List (ℕ × ℕ) → List (ℕ × ℕ)
  | [], _, pairs => pairs
  | i :: rest, used, pairs =>
    if i ∈ used then outerScan eps g rest used pairs
    else
      match (innerScan eps used i (List.range' (i + 1) (eps.length - (i + 1)))
          (signedSq g) none).2 with
      | some j => outerScan eps g rest (insert i (insert j used)) (pairs ++ [(i, j)])
      | none => outerScan eps g rest used pairs

/-- The index pairs that `find_close_endpoints(endpoints, max_dist)`
pairs up greedily, in emission order. -/
def find_close_endpointsIdx (eps : List Pt) (g : ℚ) : List (ℕ × ℕ) :=
  outerScan eps g (List.range eps.length) ∅ []

/-- `find_close_endpoints(endpoints, max_dist)` from
continuous_no_gap.py: fewer than 2 endpoints yield no connections;
otherwise each unmatched endpoint is paired greedily with its nearest
unmatched endpoint strictly closer than `max_dist`, and both are marked
used and excluded from further pairing. -/
def find_close_endpoints (eps : List Pt) (g : ℚ) : List (Pt × Pt) :=
  if eps.length < 2 then []
  else (find_close_endpointsIdx eps g).map
    (fun pr => (eps.getD pr.1 default, eps.getD pr.2 default))

/-- Squared distance from the tail of the current path to the head of
the candidate (`d1` in `connect_contours`). -/
def d1Sq (cur q : List Pt) : ℚ := sqDist (cur.getLastD default) (q.headD default)

/-- Squared distance from the head of the current path to the tail of
the candidate (`d2` in `connect_contours`).  These two are the only
endpoint distances the merger ever compares: head-to-head and
tail-to-tail distances are never consulted. -/
def d2Sq (cur q : List Pt) : ℚ := sqDist (cur.headD default) (q.getLastD default)

/-- The inner `for j` loop of `connect_contours` in optimized_lines.py:
scan the not-yet-used paths after the current one in order; when `d1 <
max_gap or d2 < max_gap`, concatenate the candidate onto the current
path in the orientation of the smaller gap (`current ++ other` if
`d1 < d2`, else `other ++ current`), mark it used, and record that a
change happened; otherwise leave it for the next outer iteration.
Returns the grown current path, the surviving paths in order, and the
change flag. -/
def absorb (g : ℚ) : List (List Pt) → List Pt → List Pt × List (List Pt) × Bool
  | [], cur => (cur, [], false)
  | q :: qs, cur =>
    if d1Sq cur q < signedSq g ∨ d2Sq cur q < signedSq g then
      ((absorb g qs (if d1Sq cur q < d2Sq cur q then cur ++ q else q ++ cur)).1,
       (absorb g qs (if d1Sq cur q < d2Sq cur q then cur ++ q else q ++ cur)).2.1,
       true)
    else
      ((absorb g qs cur).1, q :: (absorb g qs cur).2.1, (absorb g qs cur).2.2)

/-- One pass of the `while changed` loop of `connect_contours`: take
each not-yet-used path as current and absorb later paths into it.  The
fuel is an upper bound on the number of outer iterations; the list
length always suffices because `absorb` never lengthens the remaining
list. -/
def connectPassAux (g : ℚ) : ℕ → List (List Pt) → List (List Pt) × Bool
  | 0, l => (l, false)
  | _ + 1, [] => ([], false)
  | fuel + 1, p :: ps =>
    ((absorb g ps p).1 :: (connectPassAux g fuel (absorb g ps p).2.1).1,
     (absorb g ps p).2.2 || (connectPassAux g fuel (absorb g ps p).2.1).2)

/-- The `while changed and iterations < max_iterations` loop of
`connect_contours`: run passes until one makes no change, at most `k`
of them (`max_iterations = len(contours)` at the call site). -/
def connectLoop (g : ℚ) : ℕ → List (List Pt) → List (List Pt)
  | 0, l => l
  | k + 1, l =>
    if (connectPassAux g l.length l).2 then
      connectLoop g k (connectPassAux g l.length l).1
    else (connectPassAux g l.length l).1

/-- `connect_contours(contours, max_gap)` from optimized_lines.py:
fewer than 2 contours are returned unchanged, otherwise merge passes
run to a fixed point, bounded by the collection size. -/
def connect_contours (contours : List (List Pt)) (max_gap : ℚ) : List (List Pt) :=
  if contours.length < 2 then contours
  else connectLoop max_gap contours.length contours

/-! # Theorems -/

theorem sqDist_nonneg (p q : Pt) : 0 ≤ sqDist p q := by
  unfold sqDist; positivity

theorem signedSq_le_sq (x : ℚ) : signedSq x ≤ x ^ 2 := by
  unfold signedSq
  rcases abs_cases x with ⟨h, _⟩ | ⟨h, hx⟩
  · rw [h]; ring_nf; exact le_refl _
  · rw [h]; nlinarith

theorem signedSq_of_nonneg {x : ℚ} (h : 0 ≤ x) : signedSq x = x ^ 2 := by
  unfold signedSq; rw [abs_of_nonneg h]; ring

theorem decimFrom_idem (t : ℚ) : ∀ (ps : List Pt) (p : Pt),
    decimFrom t p (decimFrom t p ps) = decimFrom t p ps := by
  intro ps
  induction ps with
  | nil => intro p; rfl
  | cons q qs ih =>
    intro p
    by_cases h : signedSq t ≤ sqDist p q
    · rw [decimFrom, if_pos h, decimFrom, if_pos h, ih q]
    · rw [decimFrom, if_neg h, ih p]

/-- C5: distance decimation is idempotent: applying
`simplify_path_points` twice with the same tolerance equals applying it
once, for every path and every tolerance. -/
theorem claim_C5 (t : ℚ) (pts : List Pt) :
    simplify_path_points t (simplify_path_points t pts) = simplify_path_points t pts := by
  by_cases h : pts.length < 3
  · have h1 : simplify_path_points t pts = pts := by
      unfold simplify_path_points; rw [if_pos h]
    rw [h1, h1]
  · obtain ⟨p, ps, rfl⟩ : ∃ p ps, pts = p :: ps := by
      cases pts with
      | nil => exact absurd (by simp : ([] : List Pt).length < 3) h
      | cons a l => exact ⟨a, l, rfl⟩
    have h1 : simplify_path_points t (p :: ps) = p :: decimFrom t p ps := by
      unfold simplify_path_points; rw [if_neg h]
    rw [h1]
    by_cases h2 : (p :: decimFrom t p ps).length < 3
    · unfold simplify_path_points; rw [if_pos h2]
    · unfold simplify_path_points; rw [if_neg h2]
      simp only [decimFrom_idem]

set_option maxHeartbeats 2000000 in
theorem diag50_decimated : simplify_path_points 5 diag50 =
    [(0,0),(4,4),(8,8),(12,12),(16,16),(20,20),(24,24),(28,28),(32,32),
     (36,36),(40,40),(44,44),(48,48)] := by
  norm_num [diag50, List.range_succ, simplify_path_points, decimFrom, sqDist, signedSq]

/-- C4 counterexample: decimating the 50-point diagonal with tolerance 5
does not preserve the last point: the input ends at `(49, 49)` but the
output ends at `(48, 48)` — `simplify_path_points` never re-appends the
final input point. -/
theorem claim_C4_cex :
    (simplify_path_points 5 diag50).getLast? ≠ diag50.getLast? := by
  rw [diag50_decimated]
  norm_num [diag50, List.range_succ]

/-- C4 amended: decimating the 50-point diagonal with tolerance 5 yields
a path of fewer than 50 but at least 2 points whose first point equals
the input's first point; the last output point is not the input's last
point, but it lies strictly within the tolerance (distance 5) of the
input's last point. -/
theorem claim_C4_amended :
    (simplify_path_points 5 diag50).length < 50 ∧
    2 ≤ (simplify_path_points 5 diag50).length ∧
    (simplify_path_points 5 diag50).head? = diag50.head? ∧
    (simplify_path_points 5 diag50).getLast? = some ((48 : ℚ), (48 : ℚ)) ∧
    sqDist ((48 : ℚ), (48 : ℚ)) ((49 : ℚ), (49 : ℚ)) < 5 ^ 2 := by
  rw [diag50_decimated]
  refine ⟨by norm_num, by norm_num, ?_, by norm_num, by norm_num [sqDist]⟩
  norm_num [diag50, List.range_succ]

theorem chaikin_step_spec (p : Pt) (rest : List Pt) :
    chaikin_step (p :: rest) ≠ [] ∧
    (chaikin_step (p :: rest)).head? = some p ∧
    (chaikin_step (p :: rest)).getLast? = (p :: rest).getLast? := by
  refine ⟨by simp [chaikin_step], rfl, ?_⟩
  show (p :: (chaikinQR (p :: rest) ++ [(p :: rest).getLast (by simp)])).getLast? = _
  rw [← List.cons_append, List.getLast?_concat,
    List.getLast?_eq_getLast (p :: rest) (by simp)]

theorem chaikin_iter_spec (n : ℕ) : ∀ (pts : List Pt), pts ≠ [] →
    chaikin_step^[n] pts ≠ [] ∧
    (chaikin_step^[n] pts).head? = pts.head? ∧
    (chaikin_step^[n] pts).getLast? = pts.getLast? := by
  induction n with
  | zero => intro pts h; simpa using h
  | succ n ih =>
    intro pts h
    obtain ⟨p, rest, rfl⟩ := List.exists_cons_of_ne_nil h
    rw [Function.iterate_succ_apply]
    have hs := chaikin_step_spec p rest
    have hi := ih (chaikin_step (p :: rest)) hs.1
    exact ⟨hi.1, by rw [hi.2.1, hs.2.1]; rfl, by rw [hi.2.2, hs.2.2]⟩

/-- C6: Chaikin corner cutting preserves the first and last point of
every nonempty path across any number of iterations. -/
theorem claim_C6 (pts : List Pt) (k : ℕ) (h : pts ≠ []) :
    (chaikin_smooth pts k).head? = pts.head? ∧
    (chaikin_smooth pts k).getLast? = pts.getLast? := by
  unfold chaikin_smooth
  by_cases hc : pts.length < 4 ∨ k = 0
  · rw [if_pos hc]; exact ⟨rfl, rfl⟩
  · rw [if_neg hc]
    exact ⟨(chaikin_iter_spec k pts h).2.1, (chaikin_iter_spec k pts h).2.2⟩

/-- Witness for C6 at a concrete 4-point path and 2 iterations. -/
theorem claim_C6_witness :
    (([((0:ℚ),(0:ℚ)), ((1:ℚ),(0:ℚ)), ((2:ℚ),(0:ℚ)), ((3:ℚ),(0:ℚ))] : List Pt) ≠ []) ∧
    (chaikin_smooth [((0:ℚ),(0:ℚ)), ((1:ℚ),(0:ℚ)), ((2:ℚ),(0:ℚ)), ((3:ℚ),(0:ℚ))] 2).head? =
      ([((0:ℚ),(0:ℚ)), ((1:ℚ),(0:ℚ)), ((2:ℚ),(0:ℚ)), ((3:ℚ),(0:ℚ))] : List Pt).head? ∧
    (chaikin_smooth [((0:ℚ),(0:ℚ)), ((1:ℚ),(0:ℚ)), ((2:ℚ),(0:ℚ)), ((3:ℚ),(0:ℚ))] 2).getLast? =
      ([((0:ℚ),(0:ℚ)), ((1:ℚ),(0:ℚ)), ((2:ℚ),(0:ℚ)), ((3:ℚ),(0:ℚ))] : List Pt).getLast? := by
  have h := claim_C6 [((0:ℚ),(0:ℚ)), ((1:ℚ),(0:ℚ)), ((2:ℚ),(0:ℚ)), ((3:ℚ),(0:ℚ))] 2
    (by simp)
  exact ⟨by simp, h.1, h.2⟩

theorem map_range'_getD {α β : Type} (f : α → β) (d : α) :
    ∀ (l M : List α) (s : ℕ), M.drop s = l →
      (List.range' s l.length).map (fun j => f (M.getD j d)) = l.map f := by
  intro l
  induction l with
  | nil => intro M s h; simp
  | cons a l ih =>
    intro M s h
    have h0 : M.getD s d = a := by
      have h2 : M[s]? = some a := by
        have h3 := List.getElem?_drop M s 0
        rw [h] at h3; simpa using h3.symm
      rw [List.getD_eq_getElem?_getD, h2]; rfl
    have h1 : M.drop (s + 1) = l := by
      have h4 : List.drop 1 (List.drop s M) = List.drop (s + 1) M := List.drop_drop 1 s M
      rw [← h4, h]; rfl
    rw [List.length_cons, List.range'_succ, List.map_cons, h0, ih M (s+1) h1,
      List.map_cons]

theorem aiPathCmds_eq (height : ℚ) (p : List Pt) :
    aiPathCmds height p = (match p with
      | [] => []
      | [_] => []
      | q :: rest => PathCmd.moveto q.1 (height - q.2) ::
          rest.map (fun r => PathCmd.lineto r.1 (height - r.2))) := by
  match p with
  | [] => rfl
  | [q] => rfl
  | q :: r :: rest =>
    unfold aiPathCmds
    rw [if_neg (by simp)]
    simp only [List.getD_cons_zero, List.length_cons]
    have h := map_range'_getD (fun pt => PathCmd.lineto pt.1 (height - pt.2)) default
      (r :: rest) (q :: r :: rest) 1 (by simp)
    simp only [List.length_cons] at h
    have h5 : rest.length + 1 + 1 - 1 = rest.length + 1 := by omega
    rw [h5, h]

theorem svgPathCmds_eq (p : List Pt) :
    svgPathCmds p = (match p with
      | [] => []
      | [_] => []
      | q :: rest => PathCmd.moveto q.1 q.2 ::
          rest.map (fun r => PathCmd.lineto r.1 r.2)) := by
  match p with
  | [] => rfl
  | [q] => rfl
  | q :: r :: rest =>
    unfold svgPathCmds
    rw [if_neg (by simp)]
    simp only [List.getD_cons_zero, List.length_cons]
    have h := map_range'_getD (fun pt => PathCmd.lineto pt.1 pt.2) default
      (r :: rest) (q :: r :: rest) 1 (by simp)
    simp only [List.length_cons] at h
    have h5 : rest.length + 1 + 1 - 1 = rest.length + 1 := by omega
    rw [h5, h]

/-- C8: for every path collection and canvas height, the serializers
emit, for each path of at least 2 points, one `moveto` for the first
point followed by one `lineto` per subsequent point in order; paths of
fewer than 2 points contribute no commands; the print (AI) output flips
every vertical coordinate to `height - y` while the SVG output leaves
coordinates unflipped. -/
theorem claim_C8 (height : ℚ) (paths : List (List Pt)) :
    output_ai height paths = paths.flatMap (fun p =>
      match p with
      | [] => []
      | [_] => []
      | q :: rest => PathCmd.moveto q.1 (height - q.2) ::
          rest.map (fun r => PathCmd.lineto r.1 (height - r.2))) ∧
    output_svg paths = paths.flatMap (fun p =>
      match p with
      | [] => []
      | [_] => []
      | q :: rest => PathCmd.moveto q.1 q.2 ::
          rest.map (fun r => PathCmd.lineto r.1 r.2)) := by
  constructor
  · unfold output_ai
    rw [funext (aiPathCmds_eq height)]
  · unfold output_svg
    rw [funext svgPathCmds_eq]

theorem sq_sub_le {u v lo hi : ℚ} (h1 : lo ≤ u) (h2 : u ≤ hi) (h3 : lo ≤ v)
    (h4 : v ≤ hi) : (u - v) ^ 2 ≤ (hi - lo) ^ 2 := by nlinarith

theorem convex_mem {t u v lo hi : ℚ} (ht0 : 0 ≤ t) (ht1 : t ≤ 1) (h1 : lo ≤ u)
    (h2 : u ≤ hi) (h3 : lo ≤ v) (h4 : v ≤ hi) :
    lo ≤ u + t * (v - u) ∧ u + t * (v - u) ≤ hi := by
  constructor <;> nlinarith

theorem clampQ_mem (x : ℚ) : 0 ≤ clampQ x 0 1 ∧ clampQ x 0 1 ≤ 1 := by
  unfold clampQ
  exact ⟨le_max_left 0 _, max_le (by norm_num) (min_le_right x 1)⟩

theorem perpDistSq_le_box {p a b : Pt} {lox hix loy hiy : ℚ}
    (hp : lox ≤ p.1 ∧ p.1 ≤ hix ∧ loy ≤ p.2 ∧ p.2 ≤ hiy)
    (ha : lox ≤ a.1 ∧ a.1 ≤ hix ∧ loy ≤ a.2 ∧ a.2 ≤ hiy)
    (hb : lox ≤ b.1 ∧ b.1 ≤ hix ∧ loy ≤ b.2 ∧ b.2 ≤ hiy) :
    perpDistSq p a b ≤ (hix - lox) ^ 2 + (hiy - loy) ^ 2 := by
  unfold perpDistSq
  split
  · unfold sqDist
    exact add_le_add (sq_sub_le hp.1 hp.2.1 ha.1 ha.2.1)
      (sq_sub_le hp.2.2.1 hp.2.2.2 ha.2.2.1 ha.2.2.2)
  · have hc := clampQ_mem (((p.1 - a.1) * (b.1 - a.1) + (p.2 - a.2) * (b.2 - a.2)) / sqDist a b)
    have hx := convex_mem hc.1 hc.2 ha.1 ha.2.1 hb.1 hb.2.1
    have hy := convex_mem hc.1 hc.2 ha.2.2.1 ha.2.2.2 hb.2.2.1 hb.2.2.2
    unfold sqDist
    exact add_le_add (sq_sub_le hp.1 hp.2.1 hx.1 hx.2)
      (sq_sub_le hp.2.2.1 hp.2.2.2 hy.1 hy.2)

theorem foldl_max_le {dfun : ℕ → ℚ} {B : ℚ} :
    ∀ (l : List ℕ) (init : ℚ × ℕ), init.1 ≤ B → (∀ i ∈ l, dfun i ≤ B) →
      (l.foldl (fun m i => if m.1 < dfun i then (dfun i, i) else m) init).1 ≤ B := by
  intro l
  induction l with
  | nil => intro init h _; exact h
  | cons a l ih =>
    intro init h hall
    rw [List.foldl_cons]
    by_cases hd : init.1 < dfun a
    · rw [if_pos hd]
      exact ih (dfun a, a) (hall a (by simp)) (fun i hi => hall i (by simp [hi]))
    · rw [if_neg hd]
      exact ih init h (fun i hi => hall i (by simp [hi]))

theorem getD_last {α : Type} [Inhabited α] (l : List α) :
    l.getD (l.length - 1) default = l.getLastD default := by
  rw [List.getD_eq_getElem?_getD, ← List.getLast?_eq_getElem?,
    List.getLastD_eq_getLast?]

/-- C3 counterexample: `ramer_douglas_pecker` with `epsilon = 0` does
not return the original path: on `[(0,0), (1,1), (2,0)]` it returns
`[(1,1)]` (the base case of the recursion drops the segment end point,
so a split loses both endpoints of the path). -/
theorem claim_C3_cex :
    ramer_douglas_pecker [((0:ℚ),(0:ℚ)), ((1:ℚ),(1:ℚ)), ((2:ℚ),(0:ℚ))] 0 ≠
      [((0:ℚ),(0:ℚ)), ((1:ℚ),(1:ℚ)), ((2:ℚ),(0:ℚ))] := by
  have h : ramer_douglas_pecker [((0:ℚ),(0:ℚ)), ((1:ℚ),(1:ℚ)), ((2:ℚ),(0:ℚ))] 0 =
      [((1:ℚ),(1:ℚ))] := by
    norm_num [ramer_douglas_pecker, rdpAux, rdpMax, perpDistSq, clampQ, sqDist, signedSq,
      List.range', Prod.ext_iff, List.getElem_cons_succ, List.getElem_cons_zero]
    exact ⟨rfl, rfl⟩
  rw [h]
  simp

/-- C3 amended: with `epsilon = 0` the simplifier may change the path
(see the counterexample: interior split points survive but endpoints
can be dropped); the second half of the claim is correct: whenever
`epsilon` exceeds the diagonal of a bounding box of the path (in
particular the tight bounding diagonal), the result is exactly the two
endpoints, first and last. -/
theorem claim_C3_amended (pts : List Pt) (eps lox hix loy hiy : ℚ)
    (hlen : 2 ≤ pts.length)
    (hbox : ∀ p ∈ pts, lox ≤ p.1 ∧ p.1 ≤ hix ∧ loy ≤ p.2 ∧ p.2 ≤ hiy)
    (heps : (hix - lox) ^ 2 + (hiy - loy) ^ 2 < signedSq eps) :
    ramer_douglas_pecker pts eps = [pts.headD default, pts.getLastD default] := by
  have hne : pts ≠ [] := by
    intro hcontra; rw [hcontra] at hlen; simp at hlen
  obtain ⟨p0, rest, rfl⟩ := List.exists_cons_of_ne_nil hne
  unfold ramer_douglas_pecker
  by_cases h3 : (p0 :: rest).length < 3
  · rw [if_pos h3]
    match rest with
    | [] => simp at hlen h3
    | [q] => simp
    | q :: r :: rest' => exact absurd h3 (by simp only [List.length_cons]; omega)
  · rw [if_neg h3]
    have hn : (p0 :: rest).length = rest.length + 1 := by simp
    rw [hn]
    rw [rdpAux]
    have hge : ¬ (rest.length + 1 - 1 ≤ 0 + 1) := by
      simp only [List.length_cons] at h3; omega
    rw [if_neg hge]
    have hmem : ∀ i ∈ List.range' (0 + 1) (rest.length + 1 - 1 - (0 + 1)),
        (p0 :: rest).getD i default ∈ (p0 :: rest) := by
      intro i hi
      rw [List.mem_range'_1] at hi
      have hi2 : i < (p0 :: rest).length := by simp; omega
      rw [List.getD_eq_getElem _ _ hi2]
      exact List.getElem_mem hi2
    have hbound : (rdpMax (p0 :: rest) ((p0 :: rest).getD 0 default)
        ((p0 :: rest).getD (rest.length + 1 - 1) default) 0 (rest.length + 1 - 1)).1 ≤
        (hix - lox) ^ 2 + (hiy - loy) ^ 2 := by
      unfold rdpMax
      apply foldl_max_le
      · positivity
      · intro i hi
        apply perpDistSq_le_box (hbox _ (hmem i hi))
        · apply hbox
          rw [List.getD_eq_getElem _ _ (by simp)]
          exact List.getElem_mem (by simp)
        · apply hbox
          have hlt : rest.length + 1 - 1 < (p0 :: rest).length := by simp
          rw [List.getD_eq_getElem _ _ hlt]
          exact List.getElem_mem hlt
    rw [if_neg (by exact not_lt.2 (le_of_lt (lt_of_le_of_lt hbound heps)))]
    have hh : (p0 :: rest).getD 0 default = (p0 :: rest).headD default := by simp
    have hl : (p0 :: rest).getD (rest.length + 1 - 1) default =
        (p0 :: rest).getLastD default := by
      have := getD_last (p0 :: rest)
      simpa using this
    rw [hh, hl]

/-- Witness for C3 amended: the 3-point path `[(0,0), (1,1), (2,0)]`
fits in the box `[0,2] × [0,1]` of squared diagonal 5 < 9 = 3², and
simplification with `epsilon = 3` returns exactly the two endpoints. -/
theorem claim_C3_witness :
    2 ≤ ([((0:ℚ),(0:ℚ)), ((1:ℚ),(1:ℚ)), ((2:ℚ),(0:ℚ))] : List Pt).length ∧
    ramer_douglas_pecker [((0:ℚ),(0:ℚ)), ((1:ℚ),(1:ℚ)), ((2:ℚ),(0:ℚ))] 3 =
      [((0:ℚ),(0:ℚ)), ((2:ℚ),(0:ℚ))] := by
  constructor
  · simp
  · have h := claim_C3_amended [((0:ℚ),(0:ℚ)), ((1:ℚ),(1:ℚ)), ((2:ℚ),(0:ℚ))] 3 0 2 0 1
      (by simp)
      (by intro p hp; fin_cases hp <;> norm_num)
      (by norm_num [signedSq])
    simpa using h

/-- C9: every smoothing/simplification filter returns a path shorter
than its minimum viable length unchanged, and the curve-fitting filters
return the unfitted input path whenever the numerical fit fails (the
oracle returns `none`, modelling a raised exception), so no filter
propagates a fitting error. -/
theorem claim_C9 (pts : List Pt) (fit : List Pt → Option (List Pt)) (t eps : ℚ)
    (k w : ℕ) :
    (pts.length < 4 → curve_fitting_smooth fit pts = pts) ∧
    (fit pts = none → curve_fitting_smooth fit pts = pts) ∧
    (pts.length < 4 → fit_smooth_curve fit pts = pts) ∧
    (fit pts = none → fit_smooth_curve fit pts = pts) ∧
    (pts.length < 4 → chaikin_smooth pts k = pts) ∧
    (pts.length < 3 → simplify_path_points t pts = pts) ∧
    (pts.length < 3 → ramer_douglas_pecker pts eps = pts) ∧
    (pts.length < w → moving_average_smooth pts w = pts) := by
  refine ⟨?_, ?_, ?_, ?_, ?_, ?_, ?_, ?_⟩
  · intro h; unfold curve_fitting_smooth; rw [if_pos h]
  · intro h; unfold curve_fitting_smooth
    by_cases h4 : pts.length < 4
    · rw [if_pos h4]
    · rw [if_neg h4, h]
  · intro h; unfold fit_smooth_curve; rw [if_pos h]
  · intro h; unfold fit_smooth_curve
    by_cases h4 : pts.length < 4
    · rw [if_pos h4]
    · rw [if_neg h4, h]
  · intro h; unfold chaikin_smooth; rw [if_pos (Or.inl h)]
  · intro h; unfold simplify_path_points; rw [if_pos h]
  · intro h; unfold ramer_douglas_pecker; rw [if_pos h]
  · intro h; unfold moving_average_smooth; rw [if_pos h]

/-- Witness for C9 at the 1-point path with an always-failing fit. -/
theorem claim_C9_witness :
    ([((0:ℚ),(0:ℚ))] : List Pt).length < 4 ∧
    curve_fitting_smooth (fun _ => none) [((0:ℚ),(0:ℚ))] = [((0:ℚ),(0:ℚ))] ∧
    fit_smooth_curve (fun _ => none) [((0:ℚ),(0:ℚ))] = [((0:ℚ),(0:ℚ))] ∧
    moving_average_smooth [((0:ℚ),(0:ℚ))] 2 = [((0:ℚ),(0:ℚ))] := by
  have h := claim_C9 [((0:ℚ),(0:ℚ))] (fun _ => none) 1 1 1 2
  exact ⟨by simp, h.2.1 rfl, h.2.2.2.1 rfl, h.2.2.2.2.2.2.2 (by simp)⟩

theorem mem_fgSet {g : Grid} {c : Cell} : c ∈ fgSet g ↔ fgB g c = true := by
  unfold fgSet
  rw [Finset.mem_filter]
  constructor
  · rintro ⟨-, h⟩; exact h
  · intro h
    refine ⟨?_, h⟩
    unfold fgB inBounds at h
    rw [Bool.and_eq_true, decide_eq_true_eq] at h
    obtain ⟨⟨h1, h2, h3, h4⟩, -⟩ := h
    rw [Finset.mem_product, Finset.mem_Icc, Finset.mem_Icc]
    omega

theorem fgSet_card_le (g : Grid) : (fgSet g).card ≤ g.W.toNat * g.H.toNat := by
  calc (fgSet g).card
      ≤ ((Finset.Icc (0 : ℤ) (g.W - 1)) ×ˢ (Finset.Icc (0 : ℤ) (g.H - 1))).card :=
        Finset.card_filter_le _ _
    _ = g.W.toNat * g.H.toNat := by
        rw [Finset.card_product, Int.card_Icc, Int.card_Icc]
        congr 1 <;> omega

theorem newNbrs_mem {g : Grid} {vis : Finset Cell} {c n : Cell}
    (h : n ∈ newNbrs g vis c) : n ∈ fgSet g ∧ n ∉ vis ∧ cheb c n = 1 := by
  unfold newNbrs at h
  rw [List.mem_filter, Bool.and_eq_true, decide_eq_true_eq] at h
  obtain ⟨hm, hfg, hnv⟩ := h
  rw [List.mem_map] at hm
  obtain ⟨d, hd, rfl⟩ := hm
  refine ⟨mem_fgSet.2 hfg, hnv, ?_⟩
  unfold cheb
  show max |c.1 - (c.1 + d.1)| |c.2 - (c.2 + d.2)| = 1
  rw [show c.1 - (c.1 + d.1) = -d.1 by ring, show c.2 - (c.2 + d.2) = -d.2 by ring,
    abs_neg, abs_neg]
  fin_cases hd <;> decide

theorem newNbrs_nodup (g : Grid) (vis : Finset Cell) (c : Cell) :
    (newNbrs g vis c).Nodup := by
  unfold newNbrs
  apply List.Nodup.filter
  apply List.Nodup.map
  · intro a b hab
    have h1 : c.1 + a.1 = c.1 + b.1 := congrArg Prod.fst hab
    have h2 : c.2 + a.2 = c.2 + b.2 := congrArg Prod.snd hab
    exact Prod.ext (by omega) (by omega)
  · unfold nbrOffsets; decide

theorem floodLoop_vis_mono (g : Grid) :
    ∀ (fuel : ℕ) (vis : Finset Cell) (stack acc : List Cell),
      vis ⊆ (floodLoop g fuel vis stack acc).2 := by
  intro fuel
  induction fuel with
  | zero => intro vis stack acc; exact Finset.Subset.refl _
  | succ fuel ih =>
    intro vis stack acc
    match stack with
    | [] => exact Finset.Subset.refl _
    | c :: rest =>
      calc vis ⊆ vis ∪ (newNbrs g vis c).toFinset := Finset.subset_union_left
        _ ⊆ _ := ih _ _ _

theorem floodLoop_spec (g : Grid) :
    ∀ (fuel : ℕ) (vis : Finset Cell) (stack acc : List Cell),
    9 * ((fgSet g) \ vis).card + stack.length ≤ fuel →
    stack.Nodup → acc.Nodup →
    (∀ x ∈ stack, x ∉ acc) →
    (∀ x ∈ stack, x ∈ vis) →
    (∀ x ∈ acc, x ∈ vis) →
    (∀ x ∈ stack, x ∈ fgSet g) →
    (∀ x ∈ acc, x ∈ fgSet g) →
    (floodLoop g fuel vis stack acc).1.Nodup ∧
    (floodLoop g fuel vis stack acc).2 = vis ∪ (floodLoop g fuel vis stack acc).1.toFinset ∧
    (∀ x ∈ (floodLoop g fuel vis stack acc).1, x ∈ fgSet g) ∧
    (∃ l, (floodLoop g fuel vis stack acc).1 = acc ++ l) ∧
    (∀ x ∈ stack, x ∈ (floodLoop g fuel vis stack acc).1) ∧
    (∀ x ∈ (floodLoop g fuel vis stack acc).1, x ∈ acc ∨ x ∈ stack ∨ x ∉ vis) := by
  intro fuel
  induction fuel with
  | zero =>
    intro vis stack acc hfuel hsn han hsa hsv hav hsf haf
    have hstack : stack = [] := by
      cases stack with
      | nil => rfl
      | cons c r => simp at hfuel
    subst hstack
    refine ⟨han, ?_, haf, ⟨[], by simp [floodLoop]⟩, by simp,
      fun x hx => Or.inl hx⟩
    show vis = vis ∪ acc.toFinset
    refine (Finset.union_eq_left.2 ?_).symm
    intro x hx
    exact hav x (List.mem_toFinset.1 hx)
  | succ fuel ih =>
    intro vis stack acc hfuel hsn han hsa hsv hav hsf haf
    match stack with
    | [] =>
      refine ⟨han, ?_, haf, ⟨[], by simp [floodLoop]⟩, by simp,
        fun x hx => Or.inl hx⟩
      show vis = vis ∪ acc.toFinset
      refine (Finset.union_eq_left.2 ?_).symm
      intro x hx
      exact hav x (List.mem_toFinset.1 hx)
    | c :: rest =>
      have hcv : c ∈ vis := hsv c (List.mem_cons_self c rest)
      have hcf : c ∈ fgSet g := hsf c (List.mem_cons_self c rest)
      have hca : c ∉ acc := hsa c (List.mem_cons_self c rest)
      have hrestn : rest.Nodup := (List.nodup_cons.1 hsn).2
      have hcrest : c ∉ rest := (List.nodup_cons.1 hsn).1
      have hnodup_ns : (newNbrs g vis c).Nodup := newNbrs_nodup g vis c
      have hnsub : (newNbrs g vis c).toFinset ⊆ fgSet g \ vis := by
        intro x hx
        have hm := newNbrs_mem (List.mem_toFinset.1 hx)
        exact Finset.mem_sdiff.2 ⟨hm.1, hm.2.1⟩
      have hcard : (fgSet g \ (vis ∪ (newNbrs g vis c).toFinset)).card =
          (fgSet g \ vis).card - (newNbrs g vis c).length := by
        have h1 : fgSet g \ (vis ∪ (newNbrs g vis c).toFinset) =
            (fgSet g \ vis) \ (newNbrs g vis c).toFinset := by
          ext a
          simp only [Finset.mem_sdiff, Finset.mem_union]
          tauto
        rw [h1, Finset.card_sdiff hnsub, List.toFinset_card_of_nodup hnodup_ns]
      have hkle : (newNbrs g vis c).length ≤ (fgSet g \ vis).card := by
        calc (newNbrs g vis c).length = (newNbrs g vis c).toFinset.card :=
              (List.toFinset_card_of_nodup hnodup_ns).symm
          _ ≤ _ := Finset.card_le_card hnsub
      have hlen1 : (c :: rest).length = rest.length + 1 := by simp
      rw [hlen1] at hfuel
      have hfuel' : 9 * (fgSet g \ (vis ∪ (newNbrs g vis c).toFinset)).card +
          ((newNbrs g vis c).reverse ++ rest).length ≤ fuel := by
        rw [hcard, List.length_append, List.length_reverse]
        omega
      have hsn' : ((newNbrs g vis c).reverse ++ rest).Nodup := by
        apply List.Nodup.append (List.nodup_reverse.2 hnodup_ns) hrestn
        intro a ha har
        have hm := newNbrs_mem (List.mem_reverse.1 ha)
        exact hm.2.1 (hsv a (List.mem_cons_of_mem c har))
      have han' : (acc ++ [c]).Nodup := by
        apply List.Nodup.append han (List.nodup_singleton c)
        intro a ha har
        rw [List.mem_singleton] at har
        subst har
        exact hca ha
      have hsa' : ∀ x ∈ (newNbrs g vis c).reverse ++ rest, x ∉ acc ++ [c] := by
        intro x hx hmem
        rw [List.mem_append] at hx hmem
        rcases hx with hx | hx
        · have hm := newNbrs_mem (List.mem_reverse.1 hx)
          rcases hmem with hmem | hmem
          · exact hm.2.1 (hav x hmem)
          · rw [List.mem_singleton] at hmem
            subst hmem
            exact hm.2.1 hcv
        · rcases hmem with hmem | hmem
          · exact hsa x (List.mem_cons_of_mem c hx) hmem
          · rw [List.mem_singleton] at hmem
            subst hmem
            exact hcrest hx
      have hsv' : ∀ x ∈ (newNbrs g vis c).reverse ++ rest,
          x ∈ vis ∪ (newNbrs g vis c).toFinset := by
        intro x hx
        rw [List.mem_append] at hx
        rcases hx with hx | hx
        · exact Finset.mem_union_right _ (List.mem_toFinset.2 (List.mem_reverse.1 hx))
        · exact Finset.mem_union_left _ (hsv x (List.mem_cons_of_mem c hx))
      have hav' : ∀ x ∈ acc ++ [c], x ∈ vis ∪ (newNbrs g vis c).toFinset := by
        intro x hx
        rw [List.mem_append] at hx
        rcases hx with hx | hx
        · exact Finset.mem_union_left _ (hav x hx)
        · rw [List.mem_singleton] at hx
          subst hx
          exact Finset.mem_union_left _ hcv
      have hsf' : ∀ x ∈ (newNbrs g vis c).reverse ++ rest, x ∈ fgSet g := by
        intro x hx
        rw [List.mem_append] at hx
        rcases hx with hx | hx
        · exact (newNbrs_mem (List.mem_reverse.1 hx)).1
        · exact hsf x (List.mem_cons_of_mem c hx)
      have haf' : ∀ x ∈ acc ++ [c], x ∈ fgSet g := by
        intro x hx
        rw [List.mem_append] at hx
        rcases hx with hx | hx
        · exact haf x hx
        · rw [List.mem_singleton] at hx
          subst hx
          exact hcf
      obtain ⟨R1, R2, R3, ⟨l', R4⟩, R5, R6⟩ :=
        ih (vis ∪ (newNbrs g vis c).toFinset) ((newNbrs g vis c).reverse ++ rest)
          (acc ++ [c]) hfuel' hsn' han' hsa' hsv' hav' hsf' haf'
      have heq : floodLoop g (fuel + 1) vis (c :: rest) acc =
          floodLoop g fuel (vis ∪ (newNbrs g vis c).toFinset)
            ((newNbrs g vis c).reverse ++ rest) (acc ++ [c]) := rfl
      rw [heq]
      refine ⟨R1, ?_, R3, ⟨[c] ++ l', by rw [R4, List.append_assoc]⟩, ?_, ?_⟩
      · rw [R2, Finset.union_assoc]
        congr 1
        rw [Finset.union_eq_right]
        intro x hx
        rw [List.mem_toFinset] at hx
        exact List.mem_toFinset.2
          (R5 x (List.mem_append_left _ (List.mem_reverse.2 hx)))
      · intro x hx
        rcases List.mem_cons.1 hx with hx | hx
        · subst hx
          rw [R4]
          exact List.mem_append_left _ (List.mem_append_right _ (List.mem_singleton.2 rfl))
        · exact R5 x (List.mem_append_right _ hx)
      · intro x hx
        rcases R6 x hx with h6 | h6 | h6
        · rw [List.mem_append] at h6
          rcases h6 with h6 | h6
          · exact Or.inl h6
          · rw [List.mem_singleton] at h6
            subst h6
            exact Or.inr (Or.inl (List.mem_cons_self x rest))
        · rw [List.mem_append] at h6
          rcases h6 with h6 | h6
          · exact Or.inr (Or.inr (newNbrs_mem (List.mem_reverse.1 h6)).2.1)
          · exact Or.inr (Or.inl (List.mem_cons_of_mem c h6))
        · exact Or.inr (Or.inr (fun hx2 => h6 (Finset.mem_union_left _ hx2)))

theorem linked_nil : linked [] := by
  intro i q hi hq
  simp at hq

theorem linked_append (l : List Cell) (x : Cell) (hl : linked l)
    (hx : l = [] ∨ ∃ y ∈ l, cheb y x = 1) : linked (l ++ [x]) := by
  intro i q hi hq
  by_cases hlt : i < l.length
  · have hq' : l[i]? = some q := by
      rw [List.getElem?_append_left hlt] at hq
      exact hq
    obtain ⟨p, hp, hcheb⟩ := hl i q hi hq'
    refine ⟨p, ?_, hcheb⟩
    rw [List.take_append_eq_append_take]
    exact List.mem_append_left _ hp
  · have hle : l.length ≤ i := not_lt.1 hlt
    rw [List.getElem?_append_right hle] at hq
    have hz : i - l.length = 0 := by
      by_contra hne
      rw [List.getElem?_eq_none (by simp; omega)] at hq
      exact Option.noConfusion hq
    rw [hz] at hq
    simp at hq
    subst hq
    rcases hx with hnil | ⟨y, hy, hcheb⟩
    · subst hnil
      simp at hle hz
      omega
    · refine ⟨y, ?_, hcheb⟩
      rw [List.take_append_eq_append_take]
      apply List.mem_append_left
      rw [List.take_of_length_le hle]
      exact hy

theorem floodLoop_linked (g : Grid) :
    ∀ (fuel : ℕ) (vis : Finset Cell) (stack acc : List Cell),
    ((acc = [] ∧ ∃ s, stack = [s]) ∨ (∀ x ∈ stack, ∃ y ∈ acc, cheb y x = 1)) →
    linked acc →
    linked (floodLoop g fuel vis stack acc).1 := by
  intro fuel
  induction fuel with
  | zero => intro vis stack acc _ hacc; exact hacc
  | succ fuel ih =>
    intro vis stack acc hstk hacc
    match stack with
    | [] => exact hacc
    | c :: rest =>
      have heq : floodLoop g (fuel + 1) vis (c :: rest) acc =
          floodLoop g fuel (vis ∪ (newNbrs g vis c).toFinset)
            ((newNbrs g vis c).reverse ++ rest) (acc ++ [c]) := rfl
      rw [heq]
      apply ih
      · right
        intro x hx
        rw [List.mem_append] at hx
        rcases hx with hx | hx
        · exact ⟨c, List.mem_append_right _ (List.mem_singleton.2 rfl),
            (newNbrs_mem (List.mem_reverse.1 hx)).2.2⟩
        · rcases hstk with ⟨-, s, hs⟩ | hstk
          · have hrest : rest = [] := by
              have hsi := hs
              rw [List.cons.injEq] at hsi
              exact hsi.2
            rw [hrest] at hx
            exact absurd hx (List.not_mem_nil x)
          · obtain ⟨y, hy, hcheb⟩ := hstk x (List.mem_cons_of_mem c hx)
            exact ⟨y, List.mem_append_left _ hy, hcheb⟩
      · apply linked_append acc c hacc
        rcases hstk with ⟨haccnil, -⟩ | hstk
        · exact Or.inl haccnil
        · exact Or.inr (hstk c (List.mem_cons_self c rest))

theorem traceScan_vis_mono (g : Grid) :
    ∀ (cells : List Cell) (vis : Finset Cell) (comps : List (List Cell)),
      vis ⊆ (traceScan g cells vis comps).2 := by
  intro cells
  induction cells with
  | nil => intro vis comps; exact Finset.Subset.refl _
  | cons c cs ih =>
    intro vis comps
    by_cases hc : fgB g c ∧ c ∉ vis
    · have heq : traceScan g (c :: cs) vis comps =
          traceScan g cs (floodLoop g (fuelFor g) (insert c vis) [c] []).2
            (comps ++ [(floodLoop g (fuelFor g) (insert c vis) [c] []).1]) := by
        simp only [traceScan, if_pos hc]
      rw [heq]
      calc vis ⊆ insert c vis := Finset.subset_insert c vis
        _ ⊆ (floodLoop g (fuelFor g) (insert c vis) [c] []).2 := floodLoop_vis_mono g _ _ _ _
        _ ⊆ _ := ih _ _
    · have heq : traceScan g (c :: cs) vis comps = traceScan g cs vis comps := by
        simp only [traceScan, if_neg hc]
      rw [heq]
      exact ih vis comps

theorem traceScan_spec (g : Grid) :
    ∀ (cells : List Cell) (vis : Finset Cell) (comps : List (List Cell)),
    vis = comps.flatten.toFinset →
    comps.flatten.Nodup →
    (∀ x ∈ comps.flatten, x ∈ fgSet g) →
    (∀ comp ∈ comps, comp ≠ []) →
    (traceScan g cells vis comps).2 = (traceScan g cells vis comps).1.flatten.toFinset ∧
    (traceScan g cells vis comps).1.flatten.Nodup ∧
    (∀ x ∈ (traceScan g cells vis comps).1.flatten, x ∈ fgSet g) ∧
    (∀ comp ∈ (traceScan g cells vis comps).1, comp ≠ []) := by
  intro cells
  induction cells with
  | nil => intro vis comps h1 h2 h3 h4; exact ⟨h1, h2, h3, h4⟩
  | cons c cs ih =>
    intro vis comps h1 h2 h3 h4
    by_cases hc : fgB g c ∧ c ∉ vis
    · have heq : traceScan g (c :: cs) vis comps =
          traceScan g cs (floodLoop g (fuelFor g) (insert c vis) [c] []).2
            (comps ++ [(floodLoop g (fuelFor g) (insert c vis) [c] []).1]) := by
        simp only [traceScan, if_pos hc]
      rw [heq]
      have hfuel : 9 * ((fgSet g) \ (insert c vis)).card + [c].length ≤ fuelFor g := by
        have h5 : ((fgSet g) \ (insert c vis)).card ≤ (fgSet g).card :=
          Finset.card_le_card Finset.sdiff_subset
        have h6 := fgSet_card_le g
        unfold fuelFor
        simp only [List.length_singleton]
        omega
      obtain ⟨R1, R2, R3, ⟨l', R4⟩, R5, R6⟩ :=
        floodLoop_spec g (fuelFor g) (insert c vis) [c] [] hfuel
          (List.nodup_singleton c) List.nodup_nil
          (by intro x hx hmem; exact absurd hmem (List.not_mem_nil x))
          (by intro x hx; rw [List.mem_singleton] at hx; rw [hx]
              exact Finset.mem_insert_self c vis)
          (by intro x hx; exact absurd hx (List.not_mem_nil x))
          (by intro x hx; rw [List.mem_singleton] at hx; rw [hx]
              exact mem_fgSet.2 hc.1)
          (by intro x hx; exact absurd hx (List.not_mem_nil x))
      have hcR : c ∈ (floodLoop g (fuelFor g) (insert c vis) [c] []).1 :=
        R5 c (List.mem_singleton.2 rfl)
      have hdisj : ∀ x ∈ (floodLoop g (fuelFor g) (insert c vis) [c] []).1,
          x ∉ comps.flatten := by
        intro x hx hmem
        rcases R6 x hx with h | h | h
        · exact absurd h (List.not_mem_nil x)
        · rw [List.mem_singleton] at h
          subst h
          exact hc.2 (h1 ▸ List.mem_toFinset.2 hmem)
        · exact h (Finset.mem_insert_of_mem (h1 ▸ List.mem_toFinset.2 hmem))
      have hflat : (comps ++ [(floodLoop g (fuelFor g) (insert c vis) [c] []).1]).flatten =
          comps.flatten ++ (floodLoop g (fuelFor g) (insert c vis) [c] []).1 := by
        rw [List.flatten_append]
        simp
      apply ih
      · rw [R2, hflat, List.toFinset_append, ← h1]
        rw [Finset.insert_union]
        rw [Finset.insert_eq_self.2
          (Finset.mem_union_right _ (List.mem_toFinset.2 hcR))]
      · rw [hflat]
        exact List.Nodup.append h2 R1 (fun a ha har => hdisj a har ha)
      · rw [hflat]
        intro x hx
        rcases List.mem_append.1 hx with hx | hx
        · exact h3 x hx
        · exact R3 x hx
      · intro comp hcm
        rcases List.mem_append.1 hcm with hcm | hcm
        · exact h4 comp hcm
        · rw [List.mem_singleton] at hcm
          subst hcm
          exact List.ne_nil_of_mem hcR
    · have heq : traceScan g (c :: cs) vis comps = traceScan g cs vis comps := by
        simp only [traceScan, if_neg hc]
      rw [heq]
      exact ih vis comps h1 h2 h3 h4

theorem traceScan_coverage (g : Grid) :
    ∀ (cells : List Cell) (vis : Finset Cell) (comps : List (List Cell)) (x : Cell),
      x ∈ cells → fgB g x → x ∈ (traceScan g cells vis comps).2 := by
  intro cells
  induction cells with
  | nil => intro vis comps x hx; exact absurd hx (List.not_mem_nil x)
  | cons c cs ih =>
    intro vis comps x hx hfg
    by_cases hc : fgB g c ∧ c ∉ vis
    · have heq : traceScan g (c :: cs) vis comps =
          traceScan g cs (floodLoop g (fuelFor g) (insert c vis) [c] []).2
            (comps ++ [(floodLoop g (fuelFor g) (insert c vis) [c] []).1]) := by
        simp only [traceScan, if_pos hc]
      rw [heq]
      rcases List.mem_cons.1 hx with rfl | hx'
      · have h1 : x ∈ (floodLoop g (fuelFor g) (insert x vis) [x] []).2 :=
          floodLoop_vis_mono g _ _ _ _ (Finset.mem_insert_self x vis)
        exact traceScan_vis_mono g cs _ _ h1
      · exact ih _ _ x hx' hfg
    · have heq : traceScan g (c :: cs) vis comps = traceScan g cs vis comps := by
        simp only [traceScan, if_neg hc]
      rw [heq]
      rcases List.mem_cons.1 hx with rfl | hx'
      · have hxv : x ∈ vis := by
          by_contra hxv
          exact hc ⟨hfg, hxv⟩
        exact traceScan_vis_mono g cs vis comps hxv
      · exact ih vis comps x hx' hfg

theorem mem_scanCells {g : Grid} {x : Cell} (h : fgB g x = true) : x ∈ scanCells g := by
  unfold fgB inBounds at h
  rw [Bool.and_eq_true, decide_eq_true_eq] at h
  obtain ⟨⟨h1, h2, h3, h4⟩, -⟩ := h
  have hkey : (Int.ofNat x.1.toNat, Int.ofNat x.2.toNat) = x :=
    Prod.ext (Int.toNat_of_nonneg h1) (Int.toNat_of_nonneg h3)
  have hmem2 : (Int.ofNat x.1.toNat, Int.ofNat x.2.toNat) ∈
      (List.range g.W.toNat).map (fun (a : ℕ) => (Int.ofNat a, Int.ofNat x.2.toNat)) :=
    List.mem_map.2 ⟨x.1.toNat, List.mem_range.2 (show x.1.toNat < g.W.toNat by omega), rfl⟩
  unfold scanCells
  rw [← hkey]
  exact List.mem_flatMap.2 ⟨x.2.toNat,
    List.mem_range.2 (show x.2.toNat < g.H.toNat by omega), hmem2⟩

theorem traceScan_linked (g : Grid) :
    ∀ (cells : List Cell) (vis : Finset Cell) (comps : List (List Cell)),
    (∀ comp ∈ comps, linked comp) →
    ∀ comp ∈ (traceScan g cells vis comps).1, linked comp := by
  intro cells
  induction cells with
  | nil => intro vis comps h comp hc; exact h comp hc
  | cons c cs ih =>
    intro vis comps h comp hc
    by_cases hcond : fgB g c ∧ c ∉ vis
    · have heq : traceScan g (c :: cs) vis comps =
          traceScan g cs (floodLoop g (fuelFor g) (insert c vis) [c] []).2
            (comps ++ [(floodLoop g (fuelFor g) (insert c vis) [c] []).1]) := by
        simp only [traceScan, if_pos hcond]
      rw [heq] at hc
      refine ih _ _ ?_ comp hc
      intro comp2 hc2
      rcases List.mem_append.1 hc2 with hc2 | hc2
      · exact h comp2 hc2
      · rw [List.mem_singleton] at hc2
        subst hc2
        exact floodLoop_linked g (fuelFor g) (insert c vis) [c] []
          (Or.inl ⟨rfl, c, rfl⟩) linked_nil
    · have heq : traceScan g (c :: cs) vis comps = traceScan g cs vis comps := by
        simp only [traceScan, if_neg hcond]
      rw [heq] at hc
      exact ih vis comps h comp hc

theorem countCell_eq_zero {l : List Cell} {c : Cell} (h : c ∉ l) :
    countCell l c = 0 := by
  induction l with
  | nil => rfl
  | cons a l ih =>
    unfold countCell at ih ⊢
    rw [List.countP_cons]
    have ha : ¬ (a = c) := fun hac => h (hac ▸ List.mem_cons_self a l)
    simp only [decide_eq_true_eq, ha, if_false]
    exact ih (fun hc => h (List.mem_cons_of_mem a hc))

theorem countCell_eq_one {l : List Cell} {c : Cell} (hn : l.Nodup) (hm : c ∈ l) :
    countCell l c = 1 := by
  induction l with
  | nil => exact absurd hm (List.not_mem_nil c)
  | cons a l ih =>
    unfold countCell
    rw [List.countP_cons]
    rcases List.mem_cons.1 hm with rfl | hm'
    · have hnotin : c ∉ l := (List.nodup_cons.1 hn).1
      simp only [decide_eq_true_eq, if_pos rfl]
      rw [show l.countP (fun x => decide (x = c)) = countCell l c from rfl,
        countCell_eq_zero hnotin]
      simp
    · have hne : ¬ (a = c) := by
        rintro rfl
        exact (List.nodup_cons.1 hn).1 hm'
      simp only [decide_eq_true_eq, hne, if_false]
      exact ih (List.nodup_cons.1 hn).2 hm'

/-- C1: with the minimum-component-size filter set low enough that no
component is discarded (`min_length ≤ 1`: every component has at least
its seed pixel), the tracer partitions the foreground exactly: every
foreground pixel occurs exactly once in the concatenation of all traced
paths, every other pixel occurs zero times, and an all-background mask
(`fgSet g = ∅`) yields an empty path collection. -/
theorem claim_C1 (g : Grid) (m : ℕ) (hm : m ≤ 1) :
    (∀ c : Cell, countCell (remove_noise_from_skeleton g m).flatten c =
      if c ∈ fgSet g then 1 else 0) ∧
    (fgSet g = ∅ → remove_noise_from_skeleton g m = []) := by
  obtain ⟨S1, S2, S3, S4⟩ := traceScan_spec g (scanCells g) ∅ [] (by simp) (by simp)
    (by simp) (by simp)
  have hfilter : remove_noise_from_skeleton g m =
      (traceScan g (scanCells g) ∅ []).1 := by
    unfold remove_noise_from_skeleton traceComponents
    rw [List.filter_eq_self]
    intro comp hcmem
    have hne : comp ≠ [] := S4 comp hcmem
    have hlen : 1 ≤ comp.length := List.length_pos.2 hne
    rw [decide_eq_true_eq]
    omega
  have hset : (traceScan g (scanCells g) ∅ []).1.flatten.toFinset = fgSet g := by
    apply Finset.Subset.antisymm
    · intro x hx
      exact S3 x (List.mem_toFinset.1 hx)
    · intro x hx
      rw [← S1]
      exact traceScan_coverage g (scanCells g) ∅ [] x
        (mem_scanCells (mem_fgSet.1 hx)) (mem_fgSet.1 hx)
  constructor
  · intro c
    rw [hfilter]
    by_cases hcfg : c ∈ fgSet g
    · rw [if_pos hcfg]
      exact countCell_eq_one S2 (List.mem_toFinset.1 (hset ▸ hcfg))
    · rw [if_neg hcfg]
      apply countCell_eq_zero
      intro hmem
      exact hcfg (hset ▸ List.mem_toFinset.2 hmem)
  · intro hempty
    rw [hfilter]
    rcases hcs : (traceScan g (scanCells g) ∅ []).1 with - | ⟨comp, rest⟩
    · rfl
    · exfalso
      have hcm : comp ∈ (traceScan g (scanCells g) ∅ []).1 := by
        rw [hcs]; exact List.mem_cons_self comp rest
      have hne : comp ≠ [] := S4 comp hcm
      obtain ⟨x, hx⟩ := List.exists_mem_of_ne_nil comp hne
      have hxf : x ∈ (traceScan g (scanCells g) ∅ []).1.flatten :=
        List.mem_flatten.2 ⟨comp, hcm, hx⟩
      have hxfg : x ∈ fgSet g := S3 x hxf
      rw [hempty] at hxfg
      exact absurd hxfg (Finset.not_mem_empty x)

/-- Witness for C1: the one-pixel-line mask yields a single path whose
pixel `(2,0)` is counted exactly once, and the all-background mask
yields the empty collection. -/
theorem claim_C1_witness :
    (1 ≤ 1) ∧
    countCell (remove_noise_from_skeleton lineGrid 1).flatten ((2:ℤ), (0:ℤ)) =
      (if ((2:ℤ), (0:ℤ)) ∈ fgSet lineGrid then 1 else 0) ∧
    (0 ≤ 1) ∧ fgSet bgGrid = ∅ ∧ remove_noise_from_skeleton bgGrid 0 = [] :=
  ⟨le_refl 1, (claim_C1 lineGrid 1 (le_refl 1)).1 ((2:ℤ), (0:ℤ)), by decide, by decide,
    (claim_C1 bgGrid 0 (by decide)).2 (by decide)⟩

/-- C2 counterexample: on the L-shaped mask the tracer emits the
component in depth-first order `(0,0), (0,1), (0,2), (1,0), (2,0),
(3,0)`, in which the consecutive points `(0,2)` and `(1,0)` are at
Chebyshev distance 2 — consecutive points of a traced path are not
always 8-adjacent (the traversal jumps back to the branch left
behind at the corner). -/
theorem claim_C2_cex :
    ∃ comp ∈ trace_all_contours exGrid, ¬ chainAdj comp := by
  refine ⟨[((0:ℤ),(0:ℤ)), (0,1), (0,2), (1,0), (2,0), (3,0)], by decide, fun h => ?_⟩
  exact absurd (h 2 (by decide)) (by decide)

/-- C2 amended: consecutive points of a traced path need not be
8-adjacent (see the counterexample), but every point of a traced path
other than the first is 8-adjacent (Chebyshev distance 1) to some
earlier point of the same path. -/
theorem claim_C2_amended (g : Grid) (comp : List Cell)
    (hc : comp ∈ trace_all_contours g) : linked comp := by
  unfold trace_all_contours traceComponents at hc
  have hc' := List.mem_of_mem_filter hc
  exact traceScan_linked g (scanCells g) ∅ []
    (by intro comp2 h2; exact absurd h2 (List.not_mem_nil comp2)) comp hc'

/-- Witness for C2 amended at the L-shaped mask's traced component. -/
theorem claim_C2_witness :
    ([((0:ℤ),(0:ℤ)), (0,1), (0,2), (1,0), (2,0), (3,0)] : List Cell)
      ∈ trace_all_contours exGrid ∧
    linked [((0:ℤ),(0:ℤ)), (0,1), (0,2), (1,0), (2,0), (3,0)] :=
  ⟨by decide, claim_C2_amended exGrid _ (by decide)⟩

theorem innerScan_spec (eps : List Pt) (used : Finset ℕ) (i : ℕ) (js0 : List ℕ)
    (m0 : ℚ) :
    ∀ (js : List ℕ) (m : ℚ) (closest : Option ℕ),
    (∀ j ∈ js, j ∈ js0) → m ≤ m0 →
    (∀ j, closest = some j → j ∈ js0 ∧ j ∉ used ∧
      sqDist (eps.getD i default) (eps.getD j default) < m0) →
    ∀ j, (innerScan eps used i js m closest).2 = some j →
      j ∈ js0 ∧ j ∉ used ∧
      sqDist (eps.getD i default) (eps.getD j default) < m0 := by
  intro js
  induction js with
  | nil => intro m closest _ _ hcl j hj; exact hcl j hj
  | cons j0 js ih =>
    intro m closest hsub hm hcl j hj
    rw [innerScan] at hj
    by_cases hu : j0 ∈ used
    · rw [if_pos hu] at hj
      exact ih m closest (fun a ha => hsub a (List.mem_cons_of_mem j0 ha)) hm hcl j hj
    · rw [if_neg hu] at hj
      by_cases hd : sqDist (eps.getD i default) (eps.getD j0 default) < m
      · rw [if_pos hd] at hj
        refine ih _ _ (fun a ha => hsub a (List.mem_cons_of_mem j0 ha))
          (le_of_lt (lt_of_lt_of_le hd hm)) ?_ j hj
        intro j' hj'
        rw [Option.some.injEq] at hj'
        subst hj'
        exact ⟨hsub j0 (List.mem_cons_self j0 js), hu, lt_of_lt_of_le hd hm⟩
      · rw [if_neg hd] at hj
        exact ih m closest (fun a ha => hsub a (List.mem_cons_of_mem j0 ha)) hm hcl j hj

theorem outerScan_spec (eps : List Pt) (g : ℚ) :
    ∀ (idxs : List ℕ) (used : Finset ℕ) (pairs : List (ℕ × ℕ)),
    ((pairs.flatMap (fun pr => [pr.1, pr.2])).Nodup) →
    (∀ pr ∈ pairs, pr.1 ∈ used ∧ pr.2 ∈ used) →
    (∀ pr ∈ pairs, sqDist (eps.getD pr.1 default) (eps.getD pr.2 default) < signedSq g) →
    ((outerScan eps g idxs used pairs).flatMap (fun pr => [pr.1, pr.2])).Nodup ∧
    (∀ pr ∈ outerScan eps g idxs used pairs,
      sqDist (eps.getD pr.1 default) (eps.getD pr.2 default) < signedSq g) := by
  intro idxs
  induction idxs with
  | nil => intro used pairs h1 _ h3; exact ⟨h1, h3⟩
  | cons i rest ih =>
    intro used pairs h1 h2 h3
    rw [outerScan]
    by_cases hu : i ∈ used
    · rw [if_pos hu]
      exact ih used pairs h1 h2 h3
    · rw [if_neg hu]
      rcases hres : (innerScan eps used i
          (List.range' (i + 1) (eps.length - (i + 1))) (signedSq g) none).2 with - | j
      · exact ih used pairs h1 h2 h3
      · obtain ⟨hjm, hjt, hjd⟩ := innerScan_spec eps used i
          (List.range' (i + 1) (eps.length - (i + 1))) (signedSq g)
          (List.range' (i + 1) (eps.length - (i + 1))) (signedSq g) none
          (fun a ha => ha) (le_refl _) (fun j' hj' => Option.noConfusion hj') j hres
        have hij : i ≠ j := by
          rw [List.mem_range'_1] at hjm
          omega
        have hemit : ∀ x ∈ pairs.flatMap (fun pr => [pr.1, pr.2]), x ∈ used := by
          intro x hx
          rw [List.mem_flatMap] at hx
          obtain ⟨pr, hpr, hxpr⟩ := hx
          rcases List.mem_cons.1 hxpr with rfl | hxpr
          · exact (h2 pr hpr).1
          · rw [List.mem_singleton] at hxpr
            subst hxpr
            exact (h2 pr hpr).2
        apply ih
        · rw [List.flatMap_append]
          apply List.Nodup.append h1
          · simp only [List.flatMap_cons, List.flatMap_nil, List.append_nil]
            simp [hij]
          · intro a ha hb
            have hau := hemit a ha
            simp only [List.flatMap_cons, List.flatMap_nil, List.append_nil,
              List.mem_cons, List.not_mem_nil, or_false] at hb
            rcases hb with rfl | rfl
            · exact hu hau
            · exact hjt hau
        · intro pr hpr
          rcases List.mem_append.1 hpr with hpr | hpr
          · obtain ⟨hp1, hp2⟩ := h2 pr hpr
            exact ⟨Finset.mem_insert_of_mem (Finset.mem_insert_of_mem hp1),
              Finset.mem_insert_of_mem (Finset.mem_insert_of_mem hp2)⟩
          · rw [List.mem_singleton] at hpr
            subst hpr
            exact ⟨Finset.mem_insert_self i _,
              Finset.mem_insert_of_mem (Finset.mem_insert_self j _)⟩
        · intro pr hpr
          rcases List.mem_append.1 hpr with hpr | hpr
          · exact h3 pr hpr
          · rw [List.mem_singleton] at hpr
            subst hpr
            exact hjd

/-- C7: every pair the greedy endpoint pairing emits is strictly closer
than the max-gap threshold (squared distance below `g²`); no endpoint
index occurs in more than one pair (the flattened index list has no
duplicates); and with fewer than 2 endpoints no pairs are produced. -/
theorem claim_C7 (eps : List Pt) (g : ℚ) :
    (∀ pr ∈ find_close_endpoints eps g, sqDist pr.1 pr.2 < g ^ 2) ∧
    ((find_close_endpointsIdx eps g).flatMap (fun pr => [pr.1, pr.2])).Nodup ∧
    (eps.length < 2 → find_close_endpoints eps g = []) := by
  obtain ⟨hN, hD⟩ := outerScan_spec eps g (List.range eps.length) ∅ []
    (by simp) (by simp) (by simp)
  refine ⟨?_, hN, ?_⟩
  · intro pr hpr
    unfold find_close_endpoints at hpr
    by_cases hlen : eps.length < 2
    · rw [if_pos hlen] at hpr
      exact absurd hpr (List.not_mem_nil pr)
    · rw [if_neg hlen] at hpr
      rw [List.mem_map] at hpr
      obtain ⟨ipr, hipr, rfl⟩ := hpr
      exact lt_of_lt_of_le (hD ipr hipr) (signedSq_le_sq g)
  · intro hlen
    unfold find_close_endpoints
    rw [if_pos hlen]

/-- Witness for C7: a single endpoint produces no pairs. -/
theorem claim_C7_witness :
    ([((0:ℚ),(0:ℚ))] : List Pt).length < 2 ∧
    find_close_endpoints [((0:ℚ),(0:ℚ))] 6 = [] :=
  ⟨by decide, (claim_C7 [((0:ℚ),(0:ℚ))] 6).2.2 (by decide)⟩

theorem absorb_len (g : ℚ) : ∀ (qs : List (List Pt)) (cur : List Pt),
    (absorb g qs cur).2.1.length ≤ qs.length := by
  intro qs
  induction qs with
  | nil => intro cur; simp [absorb]
  | cons q qs ih =>
    intro cur
    rw [absorb]
    by_cases hc : d1Sq cur q < signedSq g ∨ d2Sq cur q < signedSq g
    · rw [if_pos hc]
      calc (absorb g qs (if d1Sq cur q < d2Sq cur q then cur ++ q else q ++ cur)).2.1.length
          ≤ qs.length := ih _
        _ ≤ (q :: qs).length := by simp
    · rw [if_neg hc]
      simp only [List.length_cons]
      exact Nat.succ_le_succ (ih cur)

theorem absorb_struct (g : ℚ) : ∀ (qs : List (List Pt)) (cur : List Pt),
    ∃ pre post : List (List Pt),
      (absorb g qs cur).1 = pre.flatten ++ cur ++ post.flatten ∧
      List.Perm (pre ++ post ++ (absorb g qs cur).2.1) qs := by
  intro qs
  induction qs with
  | nil =>
    intro cur
    exact ⟨[], [], by simp [absorb], by simp [absorb]⟩
  | cons q qs ih =>
    intro cur
    rw [absorb]
    by_cases hc : d1Sq cur q < signedSq g ∨ d2Sq cur q < signedSq g
    · rw [if_pos hc]
      by_cases hd : d1Sq cur q < d2Sq cur q
      · rw [if_pos hd]
        obtain ⟨pre, post, h1, h2⟩ := ih (cur ++ q)
        refine ⟨pre, q :: post, ?_, ?_⟩
        · rw [h1]
          simp [List.append_assoc]
        · refine List.Perm.trans ?_ (List.Perm.cons q h2)
          have he1 : pre ++ (q :: post) ++ (absorb g qs (cur ++ q)).2.1 =
              pre ++ q :: (post ++ (absorb g qs (cur ++ q)).2.1) := by simp
          have he2 : q :: (pre ++ post ++ (absorb g qs (cur ++ q)).2.1) =
              q :: (pre ++ (post ++ (absorb g qs (cur ++ q)).2.1)) := by simp
          rw [he1, he2]
          exact List.perm_middle
      · rw [if_neg hd]
        obtain ⟨pre, post, h1, h2⟩ := ih (q ++ cur)
        refine ⟨pre ++ [q], post, ?_, ?_⟩
        · rw [h1]
          simp [List.append_assoc]
        · refine List.Perm.trans ?_ (List.Perm.cons q h2)
          have he1 : (pre ++ [q]) ++ post ++ (absorb g qs (q ++ cur)).2.1 =
              pre ++ q :: (post ++ (absorb g qs (q ++ cur)).2.1) := by simp
          have he2 : q :: (pre ++ post ++ (absorb g qs (q ++ cur)).2.1) =
              q :: (pre ++ (post ++ (absorb g qs (q ++ cur)).2.1)) := by simp
          rw [he1, he2]
          exact List.perm_middle
    · rw [if_neg hc]
      obtain ⟨pre, post, h1, h2⟩ := ih cur
      refine ⟨pre, post, h1, ?_⟩
      refine List.Perm.trans ?_ (List.Perm.cons q h2)
      exact List.perm_middle

theorem flattenMap_eq (L : List (List (List Pt))) :
    (L.map List.flatten).flatten = L.flatten.flatten := by
  induction L with
  | nil => rfl
  | cons G L ih =>
    simp only [List.map_cons, List.flatten_cons, List.flatten_append, ih]

theorem connectPass_struct (g : ℚ) :
    ∀ (fuel : ℕ) (l : List (List Pt)), l.length ≤ fuel →
    ∃ groups : List (List (List Pt)),
      (connectPassAux g fuel l).1 = groups.map List.flatten ∧
      List.Perm groups.flatten l := by
  intro fuel
  induction fuel with
  | zero =>
    intro l hl
    have : l = [] := List.length_eq_zero.1 (Nat.le_zero.1 hl)
    subst this
    exact ⟨[], rfl, List.Perm.refl _⟩
  | succ fuel ih =>
    intro l hl
    match l with
    | [] => exact ⟨[], rfl, List.Perm.refl _⟩
    | p :: ps =>
      obtain ⟨pre, post, h1, h2⟩ := absorb_struct g ps p
      have hrest : (absorb g ps p).2.1.length ≤ fuel := by
        have ha := absorb_len g ps p
        simp only [List.length_cons] at hl
        omega
      obtain ⟨groups, hg1, hg2⟩ := ih (absorb g ps p).2.1 hrest
      refine ⟨(pre ++ [p] ++ post) :: groups, ?_, ?_⟩
      · show (absorb g ps p).1 :: (connectPassAux g fuel (absorb g ps p).2.1).1 = _
        rw [hg1, h1]
        simp [List.flatten_append, List.append_assoc]
      · show List.Perm ((pre ++ [p] ++ post) ++ groups.flatten) (p :: ps)
        refine List.Perm.trans ?_ (List.Perm.cons p h2)
        refine List.Perm.trans (List.Perm.append_left _ hg2) ?_
        have he2 : pre ++ [p] ++ post ++ (absorb g ps p).2.1 =
            pre ++ p :: (post ++ (absorb g ps p).2.1) := by simp
        have he3 : p :: (pre ++ post ++ (absorb g ps p).2.1) =
            p :: (pre ++ (post ++ (absorb g ps p).2.1)) := by simp
        rw [he2, he3]
        exact List.perm_middle

theorem concat_of_concat (l0 : List (List Pt)) :
    ∀ (parts : List (List Pt)),
    (∀ x ∈ parts, ∃ sub : List (List Pt), (∀ y ∈ sub, y ∈ l0) ∧ x = sub.flatten) →
    ∃ sub : List (List Pt), (∀ y ∈ sub, y ∈ l0) ∧ parts.flatten = sub.flatten := by
  intro parts
  induction parts with
  | nil => intro _; exact ⟨[], by simp, rfl⟩
  | cons x parts ih =>
    intro h
    obtain ⟨sub1, hs1, he1⟩ := h x (List.mem_cons_self x parts)
    obtain ⟨sub2, hs2, he2⟩ := ih (fun y hy => h y (List.mem_cons_of_mem x hy))
    refine ⟨sub1 ++ sub2, ?_, ?_⟩
    · intro y hy
      rcases List.mem_append.1 hy with hy | hy
      · exact hs1 y hy
      · exact hs2 y hy
    · rw [List.flatten_cons, he1, he2, List.flatten_append]

theorem connectLoop_spec (g : ℚ) :
    ∀ (k : ℕ) (l : List (List Pt)),
    List.Perm (connectLoop g k l).flatten l.flatten ∧
    (∀ q ∈ connectLoop g k l,
      ∃ parts : List (List Pt), (∀ x ∈ parts, x ∈ l) ∧ q = parts.flatten) := by
  intro k
  induction k with
  | zero =>
    intro l
    refine ⟨List.Perm.refl _, fun q hq => ⟨[q], ?_, by simp⟩⟩
    intro x hx
    rw [List.mem_singleton] at hx
    subst hx
    exact hq
  | succ k ih =>
    intro l
    obtain ⟨groups, hg1, hg2⟩ := connectPass_struct g l.length l (le_refl _)
    have hPflat : List.Perm (connectPassAux g l.length l).1.flatten l.flatten := by
      rw [hg1, flattenMap_eq]
      exact hg2.flatten
    have hPmem : ∀ x ∈ (connectPassAux g l.length l).1,
        ∃ parts : List (List Pt), (∀ y ∈ parts, y ∈ l) ∧ x = parts.flatten := by
      intro x hx
      rw [hg1, List.mem_map] at hx
      obtain ⟨G, hG, rfl⟩ := hx
      refine ⟨G, ?_, rfl⟩
      intro y hy
      exact hg2.subset (List.mem_flatten.2 ⟨G, hG, hy⟩)
    rw [connectLoop]
    by_cases hch : (connectPassAux g l.length l).2 = true
    · rw [if_pos hch]
      obtain ⟨ihp, ihm⟩ := ih (connectPassAux g l.length l).1
      refine ⟨ihp.trans hPflat, ?_⟩
      intro q hq
      obtain ⟨parts, hpsub, hpeq⟩ := ihm q hq
      obtain ⟨sub, hsub, hse⟩ := concat_of_concat l parts
        (fun x hx => hPmem x (hpsub x hx))
      exact ⟨sub, hsub, hpeq.trans hse⟩
    · rw [if_neg hch]
      exact ⟨hPflat, hPmem⟩

/-- C10: every path the merger outputs is the concatenation of complete
input paths, each kept verbatim in its original internal point order
(never reversed), and the multiset of all points is preserved exactly
(no point dropped or duplicated); moreover the merger only compares
tail-to-head and head-to-tail distances, so two paths neither of whose
`d1`/`d2` gaps is below the threshold are never joined, regardless of
how close their heads or their tails are to each other. -/
theorem claim_C10 (contours : List (List Pt)) (g : ℚ) (A B : List Pt) :
    List.Perm (connect_contours contours g).flatten contours.flatten ∧
    (∀ q ∈ connect_contours contours g,
      ∃ parts : List (List Pt), (∀ x ∈ parts, x ∈ contours) ∧ q = parts.flatten) ∧
    (¬ (d1Sq A B < signedSq g) → ¬ (d2Sq A B < signedSq g) →
      connect_contours [A, B] g = [A, B]) := by
  refine ⟨?_, ?_, ?_⟩
  · unfold connect_contours
    by_cases hlen : contours.length < 2
    · rw [if_pos hlen]
    · rw [if_neg hlen]
      exact (connectLoop_spec g contours.length contours).1
  · unfold connect_contours
    by_cases hlen : contours.length < 2
    · rw [if_pos hlen]
      exact fun q hq => ⟨[q], by simp [hq], by simp⟩
    · rw [if_neg hlen]
      exact (connectLoop_spec g contours.length contours).2
  · intro h1 h2
    have hcond : ¬ (d1Sq A B < signedSq g ∨ d2Sq A B < signedSq g) := by
      rintro (h | h)
      · exact h1 h
      · exact h2 h
    have habs : absorb g [B] A = (A, [B], false) := by
      rw [absorb, if_neg hcond]
      rfl
    have hpass : connectPassAux g 2 [A, B] = ([A, B], false) := by
      show ((absorb g [B] A).1 :: (connectPassAux g 1 (absorb g [B] A).2.1).1,
        (absorb g [B] A).2.2 || (connectPassAux g 1 (absorb g [B] A).2.1).2) =
          ([A, B], false)
      rw [habs]
      rfl
    unfold connect_contours
    rw [if_neg (by simp)]
    show connectLoop g 2 [A, B] = [A, B]
    rw [connectLoop]
    have hlen2 : ([A, B] : List (List Pt)).length = 2 := rfl
    rw [hlen2, hpass]
    rfl

/-- Witness for C10's no-join clause: two horizontal two-point strokes
whose heads are 1 apart and whose tails are 1 apart (both within the
gap 30) but whose tail-to-head gaps both exceed 30 are left unmerged. -/
theorem claim_C10_witness :
    ¬ (d1Sq [((0:ℚ),(0:ℚ)), ((100:ℚ),(0:ℚ))] [((0:ℚ),(1:ℚ)), ((100:ℚ),(1:ℚ))] <
      signedSq 30) ∧
    ¬ (d2Sq [((0:ℚ),(0:ℚ)), ((100:ℚ),(0:ℚ))] [((0:ℚ),(1:ℚ)), ((100:ℚ),(1:ℚ))] <
      signedSq 30) ∧
    sqDist ((0:ℚ),(0:ℚ)) ((0:ℚ),(1:ℚ)) < signedSq 30 ∧
    sqDist ((100:ℚ),(0:ℚ)) ((100:ℚ),(1:ℚ)) < signedSq 30 ∧
    connect_contours [[((0:ℚ),(0:ℚ)), ((100:ℚ),(0:ℚ))],
        [((0:ℚ),(1:ℚ)), ((100:ℚ),(1:ℚ))]] 30 =
      [[((0:ℚ),(0:ℚ)), ((100:ℚ),(0:ℚ))], [((0:ℚ),(1:ℚ)), ((100:ℚ),(1:ℚ))]] := by
  have h1 : ¬ (d1Sq [((0:ℚ),(0:ℚ)), ((100:ℚ),(0:ℚ))]
      [((0:ℚ),(1:ℚ)), ((100:ℚ),(1:ℚ))] < signedSq 30) := by
    norm_num [d1Sq, sqDist, signedSq]
  have h2 : ¬ (d2Sq [((0:ℚ),(0:ℚ)), ((100:ℚ),(0:ℚ))]
      [((0:ℚ),(1:ℚ)), ((100:ℚ),(1:ℚ))] < signedSq 30) := by
    norm_num [d2Sq, sqDist, signedSq]
  exact ⟨h1, h2, by norm_num [sqDist, signedSq], by norm_num [sqDist, signedSq],
    (claim_C10 [] 30 [((0:ℚ),(0:ℚ)), ((100:ℚ),(0:ℚ))]
      [((0:ℚ),(1:ℚ)), ((100:ℚ),(1:ℚ))]).2.2 h1 h2⟩
